import Mathlib

/-!
Verification of the php-checker static analyzer against its design spec.

This file is a shallow embedding, in Lean 4, of the parts of the analyzer
that the examined claims are about:

* the `TypeHint` type model and its compatibility predicate
  (`src/analyzer/rules/helpers.rs`),
* the PHPDoc `TypeExpression` grammar and its conversion to `TypeHint`
  (`src/analyzer/phpdoc/types.rs`, `src/analyzer/rules/helpers.rs`),
* the fix engine `apply_text_edits` (`src/analyzer/fix.rs`),
* the ignore-directive matcher (`src/analyzer/ignore.rs`),
* the configuration rule lookup (`src/analyzer/config.rs`),
* the per-file alias collection (`src/analyzer/project.rs`),
* the missing-return rule (`src/analyzer/rules/strict_typing/missing_return.rs`),
* the `Diagnostic` constructors (`src/analyzer.rs`).

Rust machine integers (`usize`) are modelled as `Nat`: the analyzer only
ever manipulates byte offsets into in-memory strings, which cannot
overflow `usize` on any supported target, so arithmetic is the same.
Rust strings are modelled as Lean `String` / `List Char`; the analyzer
operations examined here treat them as flat sequences, and byte offsets
are modelled as character offsets (the examined claims do not depend on
multi-byte encodings).  A Rust `panic!` (and out-of-range slice panics)
are modelled by returning `none` from an `Option`-valued function.
-/

namespace PhpChecker

/-! ### Type model (TypeHint, src/analyzer/rules/helpers.rs lines 6-22) -/

/-- `TypeHint` from `src/analyzer/rules/helpers.rs`: the closed recursive
type model (primitives, object, nullable wrapper, union, array-of,
generic array, shaped array, unknown). -/
inductive TypeHint where
  | int
  | string
  | bool
  | float
  | object (name : String)
  | nullable (inner : TypeHint)
  | union (members : List TypeHint)
  | array (elem : TypeHint)
  | genericArray (key value : TypeHint)
  | shapedArray (fields : List (String × TypeHint))
  | unknown

mutual

/-- Structural equality on `TypeHint`, the derived `PartialEq` of the Rust
enum.  (Written by hand because `deriving DecidableEq` does not handle
nested inductives in this Lean version.) -/
def TypeHint.beq : TypeHint → TypeHint → Bool
  | .int, .int => true
  | .string, .string => true
  | .bool, .bool => true
  | .float, .float => true
  | .object a, .object b => a == b
  | .nullable a, .nullable b => TypeHint.beq a b
  | .union a, .union b => TypeHint.beqList a b
  | .array a, .array b => TypeHint.beq a b
  | .genericArray ak av, .genericArray bk bv => TypeHint.beq ak bk && TypeHint.beq av bv
  | .shapedArray a, .shapedArray b => TypeHint.beqFields a b
  | .unknown, .unknown => true
  | _, _ => false

def TypeHint.beqList : List TypeHint → List TypeHint → Bool
  | [], [] => true
  | a :: as', b :: bs => TypeHint.beq a b && TypeHint.beqList as' bs
  | _, _ => false

def TypeHint.beqFields : List (String × TypeHint) → List (String × TypeHint) → Bool
  | [], [] => true
  | (an, a) :: as', (bn, b) :: bs => an == bn && TypeHint.beq a b && TypeHint.beqFields as' bs
  | _, _ => false

end

mutual

theorem TypeHint.beq_iff : ∀ a b : TypeHint, TypeHint.beq a b = true ↔ a = b
  | a, b => by
    cases a <;> cases b <;> simp [TypeHint.beq]
    case nullable.nullable x y => exact TypeHint.beq_iff x y
    case union.union x y => exact TypeHint.beqList_iff x y
    case array.array x y => exact TypeHint.beq_iff x y
    case genericArray.genericArray xk xv yk yv =>
      rw [TypeHint.beq_iff xk yk, TypeHint.beq_iff xv yv]
    case shapedArray.shapedArray x y => exact TypeHint.beqFields_iff x y

theorem TypeHint.beqList_iff : ∀ a b : List TypeHint, TypeHint.beqList a b = true ↔ a = b
  | a, b => by
    cases a <;> cases b <;> simp [TypeHint.beqList]
    case cons.cons x xs y ys =>
      rw [TypeHint.beq_iff x y, TypeHint.beqList_iff xs ys]

theorem TypeHint.beqFields_iff :
    ∀ a b : List (String × TypeHint), TypeHint.beqFields a b = true ↔ a = b
  | a, b => by
    cases a <;> cases b <;> simp [TypeHint.beqFields]
    case cons.cons x xs y ys =>
      obtain ⟨xn, xt⟩ := x
      obtain ⟨yn, yt⟩ := y
      rw [TypeHint.beq_iff xt yt, TypeHint.beqFields_iff xs ys]
      simp [Prod.ext_iff]

end

instance : DecidableEq TypeHint := fun a b =>
  decidable_of_iff (TypeHint.beq a b = true) (TypeHint.beq_iff a b)

/-- `is_type_compatible` from `src/analyzer/rules/helpers.rs` lines 605-692:
decides whether `actual` may flow into a position expecting `expected`.
Mirrors the Rust branch for branch; the `.attach.any` / `.attach.all`
combinators are the Lean rendering of the Rust iterator `any` / `all`. -/
def is_type_compatible (actual expected : TypeHint) : Bool :=
  if actual = expected then true
  else
    match expected with
    | .union expectedTypes =>
        if expectedTypes.attach.any (fun em => is_type_compatible actual em.1) then true
        else
          match actual with
          | .union actualTypes =>
              actualTypes.attach.all (fun am =>
                expectedTypes.attach.any (fun em => is_type_compatible am.1 em.1))
          | _ => false
    | .nullable expectedInner =>
        if is_type_compatible actual expectedInner then true
        else
          match actual with
          | .nullable actualInner => is_type_compatible actualInner expectedInner
          | _ => false
    | .array expectedElem =>
        match actual with
        | .array actualElem => is_type_compatible actualElem expectedElem
        | _ => false
    | .genericArray expectedKey expectedValue =>
        match actual with
        | .genericArray actualKey actualValue =>
            is_type_compatible actualKey expectedKey && is_type_compatible actualValue expectedValue
        | _ => false
    | e =>
        match actual with
        | .union actualTypes =>
            actualTypes.attach.all (fun am => is_type_compatible am.1 e)
        | .nullable _ => false
        | _ => false
termination_by sizeOf actual + sizeOf expected
decreasing_by
  all_goals simp_wf
  all_goals first
    | (have h1 := List.sizeOf_lt_of_mem em.2; omega)
    | (have h1 := List.sizeOf_lt_of_mem am.2; omega)
    | (have h1 := List.sizeOf_lt_of_mem am.2; have h2 := List.sizeOf_lt_of_mem em.2; omega)
    | omega

/-! ### Auxiliary measures on TypeHint (for the compatibility proofs) -/

mutual

/-- Top-level nullability nesting depth: how many `nullable` wrappers sit on
the spine of a type, where the spine passes through unions (taking the
largest member depth).  Not part of the Rust code; a proof measure. -/
def nullRank : TypeHint → Nat
  | .int => 0
  | .string => 0
  | .bool => 0
  | .float => 0
  | .object _ => 0
  | .nullable inner => nullRank inner + 1
  | .union members => nullRankList members
  | .array _ => 0
  | .genericArray _ _ => 0
  | .shapedArray _ => 0
  | .unknown => 0

def nullRankList : List TypeHint → Nat
  | [] => 0
  | t :: ts => max (nullRank t) (nullRankList ts)

end

mutual

/-- Whether `unknown` occurs anywhere inside a type value. -/
def containsUnknown : TypeHint → Bool
  | .int => false
  | .string => false
  | .bool => false
  | .float => false
  | .object _ => false
  | .nullable inner => containsUnknown inner
  | .union members => containsUnknownList members
  | .array elem => containsUnknown elem
  | .genericArray k v => containsUnknown k || containsUnknown v
  | .shapedArray fields => containsUnknownFields fields
  | .unknown => true

def containsUnknownList : List TypeHint → Bool
  | [] => false
  | t :: ts => containsUnknown t || containsUnknownList ts

def containsUnknownFields : List (String × TypeHint) → Bool
  | [] => false
  | (_, t) :: fs => containsUnknown t || containsUnknownFields fs

end

mutual

/-- The data-model invariant of the spec's §3: every `union` inside a type
value has a nonempty member list. -/
def unionsNonempty : TypeHint → Bool
  | .int => true
  | .string => true
  | .bool => true
  | .float => true
  | .object _ => true
  | .nullable inner => unionsNonempty inner
  | .union members => !members.isEmpty && unionsNonemptyList members
  | .array elem => unionsNonempty elem
  | .genericArray k v => unionsNonempty k && unionsNonempty v
  | .shapedArray fields => unionsNonemptyFields fields
  | .unknown => true

def unionsNonemptyList : List TypeHint → Bool
  | [] => true
  | t :: ts => unionsNonempty t && unionsNonemptyList ts

def unionsNonemptyFields : List (String × TypeHint) → Bool
  | [] => true
  | (_, t) :: fs => unionsNonempty t && unionsNonemptyFields fs

end

theorem nullRank_le_list {t : TypeHint} {ts : List TypeHint} (h : t ∈ ts) :
    nullRank t ≤ nullRankList ts := by
  induction ts with
  | nil => cases h
  | cons x xs ih =>
    rw [nullRankList]
    rcases List.mem_cons.mp h with rfl | hmem
    · exact le_max_left _ _
    · exact le_trans (ih hmem) (le_max_right _ _)

theorem nullRankList_le {ts : List TypeHint} {k : Nat} (h : ∀ t ∈ ts, nullRank t ≤ k) :
    nullRankList ts ≤ k := by
  induction ts with
  | nil => rw [nullRankList]; omega
  | cons x xs ih =>
    rw [nullRankList]
    exact max_le (h x (List.mem_cons_self x xs)) (ih fun t ht => h t (List.mem_cons_of_mem x ht))

/-- Key monotonicity invariant of `is_type_compatible`: a compatible pair
never loses nullability depth — the expected side carries at least the
nullability nesting of the actual side. -/
theorem compat_nullRank_le (a e : TypeHint) (h : is_type_compatible a e = true) :
    nullRank a ≤ nullRank e := by
  induction a, e using is_type_compatible.induct with
  | case1 expected => exact le_refl _
  | case2 actual expectedTypes hany hne ih =>
    rw [List.any_eq_true] at hany
    obtain ⟨em, -, hcompat⟩ := hany
    calc nullRank actual ≤ nullRank em.1 := ih em hcompat
      _ ≤ nullRankList expectedTypes := nullRank_le_list em.2
      _ = nullRank (.union expectedTypes) := by simp [nullRank]
  | case3 expectedTypes actualTypes hany hne ih1 ih2 =>
    rw [is_type_compatible.eq_def] at h
    rw [Bool.not_eq_true] at hany
    simp only [if_neg hne, hany, Bool.false_eq_true, if_false, List.all_eq_true] at h
    simp only [nullRank]
    apply nullRankList_le
    intro t ht
    have hh := h ⟨t, ht⟩ (List.mem_attach _ _)
    rw [List.any_eq_true] at hh
    obtain ⟨em, -, hcompat⟩ := hh
    exact le_trans (ih2 ⟨t, ht⟩ em hcompat) (nullRank_le_list em.2)
  | case4 actual expectedTypes hany hnotu hne ih =>
    rw [is_type_compatible.eq_def] at h
    rw [Bool.not_eq_true] at hany
    simp only [if_neg hne, hany, Bool.false_eq_true, if_false] at h
  | case5 actual expectedInner hcompat hne ih =>
    simp only [nullRank]
    exact le_trans (ih hcompat) (Nat.le_succ _)
  | case6 expectedInner actualInner hnc hne ih1 ih2 =>
    rw [is_type_compatible.eq_def] at h
    rw [Bool.not_eq_true] at hnc
    simp only [if_neg hne, hnc, Bool.false_eq_true, if_false] at h
    simp only [nullRank]
    exact Nat.succ_le_succ (ih2 h)
  | case7 actual expectedInner hnc hnotn hne ih =>
    rw [is_type_compatible.eq_def] at h
    rw [Bool.not_eq_true] at hnc
    simp only [if_neg hne, hnc, Bool.false_eq_true, if_false] at h
  | case8 expectedElem actualElem hne ih => simp [nullRank]
  | case9 actual expectedElem hnota hne =>
    rw [is_type_compatible.eq_def] at h
    simp only [if_neg hne] at h
    exact absurd h (by simp)
  | case10 expectedKey expectedValue actualKey actualValue hne ih1 ih2 => simp [nullRank]
  | case11 actual expectedKey expectedValue hnotg hne =>
    rw [is_type_compatible.eq_def] at h
    simp only [if_neg hne] at h
    exact absurd h (by simp)
  | case12 e hnotu hnotn hnota hnotg actualTypes hne ih =>
    cases e
    case union ts => exact absurd rfl (hnotu ts)
    case nullable t => exact absurd rfl (hnotn t)
    case array t => exact absurd rfl (hnota t)
    case genericArray k v => exact absurd rfl (hnotg k v)
    all_goals
      rw [is_type_compatible.eq_def] at h
      simp only [if_neg hne, List.all_eq_true] at h
      simp only [nullRank]
      apply nullRankList_le
      intro t ht
      exact ih ⟨t, ht⟩ (h ⟨t, ht⟩ (List.mem_attach _ _))
  | case13 e hnotu hnotn hnota hnotg inner hne =>
    cases e
    case union ts => exact absurd rfl (hnotu ts)
    case nullable t => exact absurd rfl (hnotn t)
    case array t => exact absurd rfl (hnota t)
    case genericArray k v => exact absurd rfl (hnotg k v)
    all_goals
      rw [is_type_compatible.eq_def] at h
      simp only [if_neg hne] at h
      exact absurd h (by simp)
  | case14 actual e hnotu hnotn hnota hnotg hnotau hnotan hne =>
    cases e
    case union ts => exact absurd rfl (hnotu ts)
    case nullable t => exact absurd rfl (hnotn t)
    case array t => exact absurd rfl (hnota t)
    case genericArray k v => exact absurd rfl (hnotg k v)
    all_goals
      rw [is_type_compatible.eq_def] at h
      simp only [if_neg hne] at h
      exact absurd h (by simp)

/-- No type value equals its own `nullable` wrapper (sizes differ). -/
theorem ne_nullable_self (t : TypeHint) : t ≠ TypeHint.nullable t := by
  intro h
  have := congrArg sizeOf h
  simp at this

/-- Compatibility is reflexive: the exact-equality short-circuit. -/
theorem compat_refl (t : TypeHint) : is_type_compatible t t = true := by
  rw [is_type_compatible.eq_def]
  simp

/-- `Nullable(T)` never flows into a bare `T`, whatever `T` is: stripping a
`nullable` wrapper strictly decreases `nullRank`, which `compat` never
allows. -/
theorem nullable_never_compat (t : TypeHint) :
    is_type_compatible (.nullable t) t = false := by
  cases hc : is_type_compatible (.nullable t) t
  · rfl
  · exfalso
    have := compat_nullRank_le _ _ hc
    simp only [nullRank] at this
    omega

theorem containsUnknownList_false {ts : List TypeHint} (h : containsUnknownList ts = false) :
    ∀ t ∈ ts, containsUnknown t = false := by
  induction ts with
  | nil => intro t ht; cases ht
  | cons x xs ih =>
    rw [containsUnknownList, Bool.or_eq_false_iff] at h
    intro t ht
    rcases List.mem_cons.mp ht with rfl | hmem
    · exact h.1
    · exact ih h.2 t hmem

theorem unionsNonemptyList_true {ts : List TypeHint} (h : unionsNonemptyList ts = true) :
    ∀ t ∈ ts, unionsNonempty t = true := by
  induction ts with
  | nil => intro t ht; cases ht
  | cons x xs ih =>
    rw [unionsNonemptyList, Bool.and_eq_true] at h
    intro t ht
    rcases List.mem_cons.mp ht with rfl | hmem
    · exact h.1
    · exact ih h.2 t hmem

/-- For a type value free of `unknown`, nothing flows *from* `unknown`. -/
theorem compat_unknown_left : ∀ (n : Nat) (t : TypeHint), sizeOf t ≤ n →
    containsUnknown t = false → is_type_compatible .unknown t = false := by
  intro n
  induction n using Nat.strong_induction_on with
  | _ n ih =>
    intro t hsize hc
    cases t with
    | unknown => rw [containsUnknown] at hc; exact absurd hc (by simp)
    | union ts =>
      rw [containsUnknown] at hc
      have hmem := containsUnknownList_false hc
      rw [is_type_compatible.eq_def]
      have hany : (ts.attach.any fun em => is_type_compatible .unknown em.1) = false := by
        rw [List.any_eq_false]
        intro em _
        have hlt := List.sizeOf_lt_of_mem em.2
        have : sizeOf em.1 < n := by
          have : 1 + sizeOf ts ≤ n := by simpa using hsize
          omega
        rw [ih (sizeOf em.1) this em.1 le_rfl (hmem em.1 em.2)]
        simp
      simp [hany]
    | nullable inner =>
      rw [containsUnknown] at hc
      rw [is_type_compatible.eq_def]
      have hin : is_type_compatible .unknown inner = false := by
        apply ih (sizeOf inner) _ inner le_rfl hc
        have : 1 + sizeOf inner ≤ n := by simpa using hsize
        omega
      simp [hin]
    | array elem => rw [is_type_compatible.eq_def]; simp
    | genericArray k v => rw [is_type_compatible.eq_def]; simp
    | int => rw [is_type_compatible.eq_def]; simp
    | string => rw [is_type_compatible.eq_def]; simp
    | bool => rw [is_type_compatible.eq_def]; simp
    | float => rw [is_type_compatible.eq_def]; simp
    | object nm => rw [is_type_compatible.eq_def]; simp
    | shapedArray fs => rw [is_type_compatible.eq_def]; simp

/-- For a type value free of `unknown` whose unions are nonempty, nothing
flows *into* `unknown`.  (Nonemptiness is needed: the empty union is
vacuously compatible with everything in the fall-through branch.) -/
theorem compat_unknown_right : ∀ (n : Nat) (t : TypeHint), sizeOf t ≤ n →
    containsUnknown t = false → unionsNonempty t = true →
    is_type_compatible t .unknown = false := by
  intro n
  induction n using Nat.strong_induction_on with
  | _ n ih =>
    intro t hsize hc hw
    cases t with
    | unknown => rw [containsUnknown] at hc; exact absurd hc (by simp)
    | union ts =>
      rw [containsUnknown] at hc
      rw [unionsNonempty, Bool.and_eq_true] at hw
      have hmem := containsUnknownList_false hc
      have hwmem := unionsNonemptyList_true hw.2
      rw [is_type_compatible.eq_def]
      obtain ⟨t0, ts', rfl⟩ : ∃ t0 ts', ts = t0 :: ts' := by
        cases ts with
        | nil => simp at hw
        | cons a b => exact ⟨a, b, rfl⟩
      have h0 : is_type_compatible t0 .unknown = false := by
        apply ih (sizeOf t0) _ t0 le_rfl (hmem t0 (by simp)) (hwmem t0 (by simp))
        have hlt := List.sizeOf_lt_of_mem (List.mem_cons_self t0 ts')
        have : 1 + sizeOf (t0 :: ts') ≤ n := by simpa using hsize
        omega
      simp [List.all_eq_true]
      intro hall
      rw [h0] at hall
      exact absurd hall (by simp)
    | nullable inner => rw [is_type_compatible.eq_def]; simp
    | array elem => rw [is_type_compatible.eq_def]; simp
    | genericArray k v => rw [is_type_compatible.eq_def]; simp
    | int => rw [is_type_compatible.eq_def]; simp
    | string => rw [is_type_compatible.eq_def]; simp
    | bool => rw [is_type_compatible.eq_def]; simp
    | float => rw [is_type_compatible.eq_def]; simp
    | object nm => rw [is_type_compatible.eq_def]; simp
    | shapedArray fs => rw [is_type_compatible.eq_def]; simp

/-- **C1, counterexample**: the claim states that for *every* `T`,
including `Unknown` itself, `is_type_compatible(Unknown, T)` is false.
It fails at `T = Unknown`: the exact-equality short-circuit at the top of
`is_type_compatible` makes `Unknown` compatible with itself. -/
theorem claim_C1_counterexample : is_type_compatible .unknown .unknown = true := by
  rw [is_type_compatible.eq_def]; simp

/-- **C1, amended**: for every type value `T` in which `Unknown` does not
occur and whose unions are all nonempty (the spec's own union invariant),
`is_type_compatible(Unknown, T)` and `is_type_compatible(T, Unknown)` are
both false; when `Unknown` occurs in `T` — in particular `T = Unknown`
itself — compatibility can hold via the equality short-circuit. -/
theorem claim_C1 (t : TypeHint) (hc : containsUnknown t = false)
    (hw : unionsNonempty t = true) :
    is_type_compatible .unknown t = false ∧ is_type_compatible t .unknown = false :=
  ⟨compat_unknown_left (sizeOf t) t le_rfl hc,
   compat_unknown_right (sizeOf t) t le_rfl hc hw⟩

/-- **C1, witness**: the amended claim at the concrete type `?int`. -/
theorem claim_C1_witness :
    containsUnknown (.nullable .int) = false ∧ unionsNonempty (.nullable .int) = true ∧
    is_type_compatible .unknown (.nullable .int) = false ∧
    is_type_compatible (.nullable .int) .unknown = false :=
  ⟨by decide, by decide, (claim_C1 (.nullable .int) (by decide) (by decide)).1,
   (claim_C1 (.nullable .int) (by decide) (by decide)).2⟩

/-- **C4**: for every type value `T`, `is_type_compatible(T, Nullable(T))`
and `is_type_compatible(Nullable(T), Nullable(T))` hold, and
`is_type_compatible(Nullable(T), T)` does not hold when `T` is not itself
nullable-wrapped (in fact it never holds, by `nullable_never_compat`). -/
theorem claim_C4 (t : TypeHint) :
    is_type_compatible t (.nullable t) = true ∧
    is_type_compatible (.nullable t) (.nullable t) = true ∧
    ((∀ s, t ≠ TypeHint.nullable s) → is_type_compatible (.nullable t) t = false) := by
  refine ⟨?_, compat_refl _, fun _ => nullable_never_compat t⟩
  rw [is_type_compatible.eq_def]
  simp [if_neg (ne_nullable_self t), compat_refl t]

/-- **C4, witness**: the claim at the concrete type `int`. -/
theorem claim_C4_witness :
    is_type_compatible .int (.nullable .int) = true ∧
    is_type_compatible (.nullable .int) (.nullable .int) = true ∧
    is_type_compatible (.nullable .int) .int = false :=
  ⟨(claim_C4 .int).1, (claim_C4 .int).2.1,
   (claim_C4 .int).2.2 (fun _s h => TypeHint.noConfusion h)⟩

/-! ### PHPDoc type expressions (src/analyzer/phpdoc/types.rs) -/

/-- `TypeExpression` from `src/analyzer/phpdoc/types.rs`: the PHPDoc
type-annotation grammar. -/
inductive TypeExpression where
  | simple (s : String)
  | array (inner : TypeExpression)
  | generic (base : String) (params : List TypeExpression)
  | union (types : List TypeExpression)
  | nullable (inner : TypeExpression)
  | mixed
  | void
  | never

mutual

/-- `type_expression_to_hint` from `src/analyzer/rules/helpers.rs` lines
457-499: converts a PHPDoc type expression to a `TypeHint`, or `none` when
the expression has no `TypeHint` rendering. -/
def type_expression_to_hint : TypeExpression → Option TypeHint
  | .simple s =>
      if s = "int" ∨ s = "integer" then some .int
      else if s = "string" then some .string
      else if s = "bool" ∨ s = "boolean" then some .bool
      else if s = "float" ∨ s = "double" then some .float
      else some (.object s)
  | .nullable inner => (type_expression_to_hint inner).map (fun t => .nullable t)
  | .union types =>
      let hints := hintFilterMap types
      if hints.isEmpty then none else some (.union hints)
  | .array inner => (type_expression_to_hint inner).map (fun t => .array t)
  | .generic base params =>
      if base = "array" then
        match params with
        | [p1, p2] =>
            match type_expression_to_hint p1 with
            | none => none
            | some keyHint =>
                match type_expression_to_hint p2 with
                | none => none
                | some valueHint => some (.genericArray keyHint valueHint)
        | _ => none
      else none
  | .mixed => none
  | .void => none
  | .never => none

/-- The Rust `types.iter().filter_map(type_expression_to_hint).collect()`. -/
def hintFilterMap : List TypeExpression → List TypeHint
  | [] => []
  | t :: ts =>
      match type_expression_to_hint t with
      | some h => h :: hintFilterMap ts
      | none => hintFilterMap ts

end

theorem hintFilterMap_eq (types : List TypeExpression) :
    hintFilterMap types = types.filterMap type_expression_to_hint := by
  induction types with
  | nil => rfl
  | cons t ts ih =>
    rw [hintFilterMap, List.filterMap_cons]
    cases type_expression_to_hint t <;> simp [ih]

/-- **C5, counterexample**: the claim states that a PHPDoc union fails to
convert whenever *any single member* fails; but `type_expression_to_hint`
uses `filter_map`, so `int|void` (whose member `void` does not convert)
still converts, to `Union([Int])`. -/
theorem claim_C5_counterexample :
    type_expression_to_hint (.union [.simple "int", .void]) = some (.union [.int]) ∧
    type_expression_to_hint .void = none := by
  constructor <;> rfl

/-- **C5, amended**: union conversion is member-wise, *dropping* members
that fail to convert; the union converts to the `Union` of the successful
members, and is unconvertible only when every member fails. -/
theorem claim_C5 (types : List TypeExpression) :
    (type_expression_to_hint (.union types) = none ↔
      ∀ t ∈ types, type_expression_to_hint t = none) ∧
    ((∃ t ∈ types, type_expression_to_hint t ≠ none) →
      type_expression_to_hint (.union types) =
        some (.union (types.filterMap type_expression_to_hint))) := by
  have hfm := hintFilterMap_eq types
  constructor
  · rw [type_expression_to_hint]
    simp only [hfm, List.isEmpty_eq_true]
    constructor
    · intro h
      split at h
      · intro t ht
        by_contra hne
        obtain ⟨x, hx⟩ := Option.ne_none_iff_exists.mp hne
        have : x ∈ types.filterMap type_expression_to_hint :=
          List.mem_filterMap.mpr ⟨t, ht, hx.symm⟩
        simp_all
      · simp at h
    · intro h
      have : types.filterMap type_expression_to_hint = [] := by
        rw [List.filterMap_eq_nil_iff]
        intro a ha
        exact h a ha
      simp [this]
  · intro ⟨t, ht, hne⟩
    rw [type_expression_to_hint]
    simp only [hfm]
    rw [Option.ne_none_iff_exists] at hne
    obtain ⟨x, hx⟩ := hne
    have hmem : x ∈ types.filterMap type_expression_to_hint :=
      List.mem_filterMap.mpr ⟨t, ht, hx.symm⟩
    have : ¬ (types.filterMap type_expression_to_hint).isEmpty := by
      rw [List.isEmpty_eq_true]
      intro hnil
      rw [hnil] at hmem
      cases hmem
    simp [this]

/-- **C5, witness**: the amended claim at the concrete union `int|void`. -/
theorem claim_C5_witness :
    (type_expression_to_hint (.union [.simple "int", .void]) = none ↔
      ∀ t ∈ [TypeExpression.simple "int", TypeExpression.void],
        type_expression_to_hint t = none) ∧
    type_expression_to_hint (.union [.simple "int", .void]) =
      some (.union ([TypeExpression.simple "int", TypeExpression.void].filterMap
        type_expression_to_hint)) :=
  ⟨(claim_C5 [.simple "int", .void]).1,
   (claim_C5 [.simple "int", .void]).2 ⟨.simple "int", by simp, by rw [type_expression_to_hint]; simp⟩⟩

/-! ### Fix engine (src/analyzer/fix.rs) -/

/-- `TextEdit` from `src/analyzer/fix.rs`: a byte-range replacement.
`end` is a Lean keyword, hence the primed field name. -/
structure TextEdit where
  start : Nat
  end' : Nat
  replacement : List Char
deriving DecidableEq


/-- Strict lexicographic order on the `(start, end)` sort key used by
`apply_text_edits`'s `sort_by`. -/
def editKeyLT (a b : TextEdit) : Bool :=
  a.start < b.start || (a.start == b.start && a.end' < b.end')

/-- Insert `x` in front of the first element not strictly key-below it.
`insertEdit`/`sortEdits` model the Rust *stable* `sort_by` on the key
`(start, end)`: a stable insertion sort computes exactly the same list as
any stable sort (elements ordered by key, ties in input order). -/
def insertEdit (x : TextEdit) : List TextEdit → List TextEdit
  | [] => [x]
  | y :: ys => if editKeyLT y x then y :: insertEdit x ys else x :: y :: ys

def sortEdits : List TextEdit → List TextEdit
  | [] => []
  | x :: xs => insertEdit x (sortEdits xs)

/-- The walking loop of `apply_text_edits`, from `src/analyzer/fix.rs`
lines 30-43.  `none` models a panic: the explicit
`panic!("overlapping edits are not supported")` when an edit starts before
the cursor, and the implicit slice-bound panics of `&source[cursor..start]`
(needs `start ≤ len`) and of the final `&source[cursor..]`
(needs `cursor ≤ len`). -/
def applyGo (source : List Char) : Nat → List TextEdit → Option (List Char)
  | cursor, [] => if cursor ≤ source.length then some (source.drop cursor) else none
  | cursor, e :: rest =>
      if e.start < cursor then none
      else if source.length < e.start then none
      else
        match applyGo source e.end' rest with
        | some tail => some ((source.drop cursor).take (e.start - cursor) ++ e.replacement ++ tail)
        | none => none

/-- `apply_text_edits` from `src/analyzer/fix.rs` lines 23-44. -/
def apply_text_edits (source : List Char) (edits : List TextEdit) : Option (List Char) :=
  applyGo source 0 (sortEdits edits)

/-- Modelled from the spec's words (§4.5): the merged text obtained by
copying the untouched source between the cursor and each edit's start,
then the edit's replacement, advancing the cursor to the edit's end, and
finally copying the remaining source. -/
def renderEdits (source : List Char) : Nat → List TextEdit → List Char
  | cursor, [] => source.drop cursor
  | cursor, e :: rest =>
      (source.drop cursor).take (e.start - cursor) ++ e.replacement ++
        renderEdits source e.end' rest

/-- The walk's no-overlap condition: starting from `cursor`, every edit
starts at or after the previous edit's end. -/
def noOverlap : Nat → List TextEdit → Bool
  | _, [] => true
  | cursor, e :: rest => cursor ≤ e.start && noOverlap e.end' rest

/-- Every edit's byte range lies inside the source. -/
def editsInRange (source : List Char) (edits : List TextEdit) : Bool :=
  edits.all (fun e => e.start ≤ source.length && e.end' ≤ source.length)

theorem insertEdit_perm (x : TextEdit) (l : List TextEdit) :
    (insertEdit x l).Perm (x :: l) := by
  induction l with
  | nil => exact List.Perm.refl _
  | cons y ys ih =>
    rw [insertEdit]
    split
    · exact ((ih.cons y).trans (List.Perm.swap x y ys))
    · exact List.Perm.refl _

theorem sortEdits_perm (edits : List TextEdit) : (sortEdits edits).Perm edits := by
  induction edits with
  | nil => exact List.Perm.refl _
  | cons x xs ih => exact (insertEdit_perm x (sortEdits xs)).trans (ih.cons x)

/-- The propositional `(start, end)` key order. -/
def keyLE (a b : TextEdit) : Prop :=
  a.start < b.start ∨ (a.start = b.start ∧ a.end' ≤ b.end')

theorem keyLE_of_not_lt {a b : TextEdit} (h : editKeyLT a b = false) : keyLE b a := by
  rw [editKeyLT] at h
  simp only [Bool.or_eq_false_iff, Bool.and_eq_false_iff] at h
  obtain ⟨h1, h2⟩ := h
  rcases h2 with h2 | h2
  · left; simp at h1 h2; omega
  · simp at h1 h2
    rcases Nat.lt_or_ge b.start a.start with hlt | hge
    · left; exact hlt
    · right; exact ⟨by omega, h2⟩

theorem insertEdit_pairwise {x : TextEdit} {l : List TextEdit}
    (h : List.Pairwise keyLE l) : List.Pairwise keyLE (insertEdit x l) := by
  induction l with
  | nil => simp [insertEdit]
  | cons y ys ih =>
    rw [insertEdit]
    rw [List.pairwise_cons] at h
    split
    · rename_i hlt
      rw [List.pairwise_cons]
      refine ⟨?_, ih h.2⟩
      intro a ha
      have := (insertEdit_perm x ys).mem_iff.mp ha
      rcases List.mem_cons.mp this with rfl | hmem
      · rw [editKeyLT] at hlt
        simp only [Bool.or_eq_true, Bool.and_eq_true] at hlt
        rcases hlt with hlt | ⟨he, hlt⟩
        · left; simpa using hlt
        · right; simp at he hlt; exact ⟨he, le_of_lt hlt⟩
      · exact h.1 a hmem
    · rename_i hnlt
      rw [List.pairwise_cons]
      refine ⟨?_, List.pairwise_cons.mpr h⟩
      intro a ha
      rcases List.mem_cons.mp ha with rfl | hmem
      · exact keyLE_of_not_lt (by simpa using hnlt)
      · have hy := h.1 a hmem
        have hxy := keyLE_of_not_lt (by simpa using hnlt)
        rcases hxy with h1 | ⟨h1, h2⟩
        · rcases hy with h3 | ⟨h3, h4⟩
          · left; omega
          · left; omega
        · rcases hy with h3 | ⟨h3, h4⟩
          · left; omega
          · right; exact ⟨by omega, by omega⟩

theorem sortEdits_pairwise (edits : List TextEdit) :
    List.Pairwise keyLE (sortEdits edits) := by
  induction edits with
  | nil => simp [sortEdits]
  | cons x xs ih => exact insertEdit_pairwise ih

theorem applyGo_some (source : List Char) :
    ∀ (es : List TextEdit) (c : Nat), noOverlap c es = true →
      editsInRange source es = true → c ≤ source.length →
      applyGo source c es = some (renderEdits source c es) := by
  intro es
  induction es with
  | nil => intro c h1 h2 hc; rw [applyGo, if_pos hc, renderEdits]
  | cons e rest ih =>
    intro c h1 h2 hc
    rw [noOverlap, Bool.and_eq_true] at h1
    rw [editsInRange, List.all_cons, Bool.and_eq_true] at h2
    rw [applyGo]
    have hstart : ¬ e.start < c := by have := h1.1; simp at this; omega
    have hlen : ¬ source.length < e.start := by
      have := h2.1; simp only [Bool.and_eq_true, decide_eq_true_eq] at this; omega
    rw [if_neg hstart, if_neg hlen]
    have hend : e.end' ≤ source.length := by
      have := h2.1; simp only [Bool.and_eq_true, decide_eq_true_eq] at this; omega
    rw [ih e.end' h1.2 h2.2 hend, renderEdits]

theorem applyGo_none (source : List Char) :
    ∀ (es : List TextEdit) (c : Nat), noOverlap c es = false →
      applyGo source c es = none := by
  intro es
  induction es with
  | nil => intro c h; rw [noOverlap] at h; cases h
  | cons e rest ih =>
    intro c h
    rw [noOverlap, Bool.and_eq_false_iff] at h
    rw [applyGo]
    rcases h with h | h
    · rw [if_pos (by simp at h; omega)]
    · by_cases hsc : e.start < c
      · rw [if_pos hsc]
      · rw [if_neg hsc]
        by_cases hlen : source.length < e.start
        · rw [if_pos hlen]
        · rw [if_neg hlen, ih e.end' h]

/-- **C3**: `apply_text_edits` sorts the edits by `(start, end)` ascending
(the sorted list is a permutation of the input, pairwise ordered by the
key), and walks them copying untouched source / replacement / advancing
the cursor to each edit's end (`renderEdits`, the spec's description);
if any sorted edit's start is before the current cursor the operation
panics (modelled as `none`) instead of returning merged text. -/
theorem claim_C3 (source : List Char) (edits : List TextEdit) :
    (sortEdits edits).Perm edits ∧
    List.Pairwise keyLE (sortEdits edits) ∧
    (noOverlap 0 (sortEdits edits) = true → editsInRange source (sortEdits edits) = true →
      apply_text_edits source edits = some (renderEdits source 0 (sortEdits edits))) ∧
    (noOverlap 0 (sortEdits edits) = false → apply_text_edits source edits = none) :=
  ⟨sortEdits_perm edits, sortEdits_pairwise edits,
   fun h1 h2 => applyGo_some source (sortEdits edits) 0 h1 h2 (Nat.zero_le _),
   fun h => applyGo_none source (sortEdits edits) 0 h⟩

/-- **C3, witness**: an out-of-order non-overlapping pair merges into the
described text; an overlapping pair fails. -/
theorem claim_C3_witness :
    apply_text_edits "abcdef".data [⟨4, 6, ['Z']⟩, ⟨1, 3, ['X', 'Y']⟩] =
      some "aXYdZ".data ∧
    apply_text_edits "abcdef".data [⟨1, 3, ['X']⟩, ⟨2, 5, ['Y']⟩] = none := by
  constructor
  · rw [(claim_C3 "abcdef".data [⟨4, 6, ['Z']⟩, ⟨1, 3, ['X', 'Y']⟩]).2.2.1 (by decide) (by decide)]
    decide
  · exact (claim_C3 "abcdef".data [⟨1, 3, ['X']⟩, ⟨2, 5, ['Y']⟩]).2.2.2 (by decide)

/-- **C9, counterexample**: the claim quantifies over *every* edit list
whose sorted starts are at or past the previous end, but an edit whose
range lies beyond the end of the source panics on slicing even though the
overlap chain condition holds: one edit `[1, 1)` applied to the empty
source. -/
theorem claim_C9_counterexample :
    noOverlap 0 (sortEdits [⟨1, 1, ['x']⟩]) = true ∧
    apply_text_edits [] [⟨1, 1, ['x']⟩] = none := by decide

/-- **C9, amended**: for every list of edits such that, after sorting by
`(start, end)`, each edit's start is at or past the previous edit's end
*and every edit's byte range lies within the source*, `apply_text_edits`
succeeds. -/
theorem claim_C9 (source : List Char) (edits : List TextEdit)
    (h1 : noOverlap 0 (sortEdits edits) = true)
    (h2 : editsInRange source (sortEdits edits) = true) :
    (apply_text_edits source edits).isSome = true := by
  rw [apply_text_edits, applyGo_some source (sortEdits edits) 0 h1 h2 (Nat.zero_le _)]
  rfl

/-- **C9, witness**: edits touching at a boundary (`end = next start`) are
not treated as overlapping, and two zero-width insertions at the same
position are both applied, in input order. -/
theorem claim_C9_witness :
    (apply_text_edits "abcd".data [⟨0, 2, ['X']⟩, ⟨2, 4, ['Y']⟩]).isSome = true ∧
    apply_text_edits "abcd".data [⟨0, 2, ['X']⟩, ⟨2, 4, ['Y']⟩] = some "XY".data ∧
    (apply_text_edits "ab".data [⟨1, 1, ['x']⟩, ⟨1, 1, ['y']⟩]).isSome = true ∧
    apply_text_edits "ab".data [⟨1, 1, ['x']⟩, ⟨1, 1, ['y']⟩] = some "axyb".data := by
  refine ⟨claim_C9 "abcd".data _ (by decide) (by decide), by decide,
    claim_C9 "ab".data _ (by decide) (by decide), by decide⟩

/-! ### Ignore directives (src/analyzer/ignore.rs) -/

/-- `IgnoreState` from `src/analyzer/ignore.rs`: either "ignore everything"
or a list of normalized (lower-cased, trimmed) patterns. -/
structure IgnoreState where
  ignore_all : Bool
  patterns : List String

/-- Rust `u8::to_ascii_lowercase`, on the ASCII range of `Char`. -/
def asciiLower (c : Char) : Char :=
  if 'A' ≤ c ∧ c ≤ 'Z' then Char.ofNat (c.toNat + 32) else c

/-- `IgnoreState::should_ignore` from `src/analyzer/ignore.rs` lines
81-102: a pattern suppresses `rule_name` on exact match, or when
`rule_name` starts with the pattern, is strictly longer, and the byte just
after the pattern is `'/'`. -/
def should_ignore (st : IgnoreState) (rule_name : String) : Bool :=
  if st.ignore_all then true
  else
    let rl := rule_name.data.map asciiLower
    st.patterns.any (fun p =>
      rl == p.data ||
        (p.data.isPrefixOf rl && decide (p.data.length < rl.length) &&
          rl.get? p.data.length == some '/'))

/-- **C7**: with pattern set exactly `["cleanup"]` (and no file-level
ignore), `should_ignore "cleanup/unused_use"` is true and
`should_ignore "cleanupish/other"` is false; in general a single stored
pattern suppresses a rule name exactly on equality or on a prefix match
immediately followed by `'/'`, never on a bare substring prefix. -/
theorem claim_C7 :
    should_ignore ⟨false, ["cleanup"]⟩ "cleanup/unused_use" = true ∧
    should_ignore ⟨false, ["cleanup"]⟩ "cleanupish/other" = false ∧
    ∀ (p rule : String),
      should_ignore ⟨false, [p]⟩ rule =
        (rule.data.map asciiLower == p.data ||
          (p.data.isPrefixOf (rule.data.map asciiLower) &&
            decide (p.data.length < (rule.data.map asciiLower).length) &&
            (rule.data.map asciiLower).get? p.data.length == some '/')) := by
  refine ⟨by decide, by decide, fun p rule => ?_⟩
  rw [should_ignore]
  simp [List.any]

/-! ### Configuration rule lookup (src/analyzer/config.rs) -/

/-- The `rules` map of `AnalyzerConfig`, modelled as an association list
(the Rust `HashMap` lookup on a map with unique keys). -/
def lookupRule : List (String × Bool) → List Char → Option Bool
  | [], _ => none
  | (k, v) :: rest, cand => if k.data = cand then some v else lookupRule rest cand

/-- Rust `str::rfind('/')`: index of the last `'/'`, if any. -/
def rfindSlash : List Char → Option Nat
  | [] => none
  | c :: cs =>
      match rfindSlash cs with
      | some i => some (i + 1)
      | none => if c = '/' then some 0 else none

theorem rfindSlash_lt : ∀ {s : List Char} {i : Nat}, rfindSlash s = some i → i < s.length := by
  intro s
  induction s with
  | nil => intro i h; exact absurd h (by rw [rfindSlash]; simp)
  | cons c cs ih =>
    intro i h
    rw [rfindSlash] at h
    cases hr : rfindSlash cs with
    | some j =>
      rw [hr] at h
      injection h with h
      subst h
      have := ih hr
      simp
      omega
    | none =>
      rw [hr] at h
      by_cases hc : c = '/'
      · rw [if_pos hc] at h
        injection h with h
        subst h
        simp
      · rw [if_neg hc] at h
        cases h

/-- The lookup loop of `AnalyzerConfig::enabled` from
`src/analyzer/config.rs` lines 29-45: look the candidate up; if absent,
truncate at the last `'/'` and retry; with no `'/'` left, default to
enabled. -/
def enabledGo (rules : List (String × Bool)) (candidate : List Char) : Bool :=
  match lookupRule rules candidate with
  | some b => b
  | none =>
      match h : rfindSlash candidate with
      | some idx => enabledGo rules (candidate.take idx)
      | none => true
termination_by candidate.length
decreasing_by
  simp
  have := rfindSlash_lt h
  omega

/-- `AnalyzerConfig::enabled`. -/
def enabled (rules : List (String × Bool)) (rule_name : String) : Bool :=
  enabledGo rules rule_name.data

/-- The candidates `enabled` tries, in order: the name itself, then each
successive truncation at the last `'/'`. -/
def candidateChain (candidate : List Char) : List (List Char) :=
  candidate ::
    (match h : rfindSlash candidate with
      | some idx => candidateChain (candidate.take idx)
      | none => [])
termination_by candidate.length
decreasing_by
  simp
  have := rfindSlash_lt h
  omega

theorem enabledGo_hit {rules : List (String × Bool)} {cand : List Char} {b : Bool}
    (hl : lookupRule rules cand = some b) : enabledGo rules cand = b := by
  rw [enabledGo.eq_def]
  split
  next b' hb => rw [hl] at hb; injection hb with e; rw [e]
  next hb => rw [hl] at hb; cases hb

theorem enabledGo_miss_slash {rules : List (String × Bool)} {cand : List Char} {idx : Nat}
    (hl : lookupRule rules cand = none) (hr : rfindSlash cand = some idx) :
    enabledGo rules cand = enabledGo rules (cand.take idx) := by
  rw [enabledGo.eq_def]
  split
  next b' hb => rw [hl] at hb; cases hb
  next hb =>
    split
    next idx' hr' => rw [hr] at hr'; injection hr' with e; rw [e]
    next hr' => rw [hr] at hr'; cases hr'

theorem enabledGo_miss_none {rules : List (String × Bool)} {cand : List Char}
    (hl : lookupRule rules cand = none) (hr : rfindSlash cand = none) :
    enabledGo rules cand = true := by
  rw [enabledGo.eq_def]
  split
  next b' hb => rw [hl] at hb; cases hb
  next hb =>
    split
    next idx' hr' => rw [hr] at hr'; cases hr'
    next hr' => rfl

theorem candidateChain_slash {cand : List Char} {idx : Nat} (hr : rfindSlash cand = some idx) :
    candidateChain cand = cand :: candidateChain (cand.take idx) := by
  rw [candidateChain.eq_def]
  congr 1
  split
  next idx' hr' =>
    rw [hr] at hr'
    injection hr' with e
    rw [e]
  next hr' => rw [hr] at hr'; cases hr'

theorem candidateChain_none {cand : List Char} (hr : rfindSlash cand = none) :
    candidateChain cand = [cand] := by
  rw [candidateChain.eq_def]
  congr 1
  split
  next idx' hr' => rw [hr] at hr'; cases hr'
  next hr' => rfl

theorem candidateChain_head (cand : List Char) : (candidateChain cand).head? = some cand := by
  rw [candidateChain.eq_def]
  rfl

theorem enabledGo_chain (rules : List (String × Bool)) :
    ∀ (n : Nat) (cand : List Char), cand.length ≤ n →
      enabledGo rules cand = ((candidateChain cand).findSome? (lookupRule rules)).getD true := by
  intro n
  induction n using Nat.strong_induction_on with
  | _ n ih =>
    intro cand hlen
    cases hl : lookupRule rules cand with
    | some b =>
      rw [enabledGo_hit hl]
      cases hr : rfindSlash cand with
      | some idx => rw [candidateChain_slash hr]; simp [List.findSome?, hl]
      | none => rw [candidateChain_none hr]; simp [List.findSome?, hl]
    | none =>
      cases hr : rfindSlash cand with
      | some idx =>
        have hidx := rfindSlash_lt hr
        have hlt : (cand.take idx).length < n := by simp; omega
        rw [enabledGo_miss_slash hl hr, candidateChain_slash hr,
          ih (cand.take idx).length hlt (cand.take idx) le_rfl]
        simp [List.findSome?, hl]
      | none =>
        rw [enabledGo_miss_none hl hr, candidateChain_none hr]
        simp [List.findSome?, hl]

theorem candidateChain_decreasing : ∀ (n : Nat) (cand : List Char), cand.length ≤ n →
    List.Chain' (fun a b : List Char => b.length < a.length) (candidateChain cand) := by
  intro n
  induction n using Nat.strong_induction_on with
  | _ n ih =>
    intro cand hlen
    cases hr : rfindSlash cand with
    | some idx =>
      have hidx := rfindSlash_lt hr
      have hlt : (cand.take idx).length < n := by simp; omega
      rw [candidateChain_slash hr, List.chain'_cons']
      refine ⟨?_, ih (cand.take idx).length hlt (cand.take idx) le_rfl⟩
      intro b hb
      rw [candidateChain_head] at hb
      injection hb with hb
      rw [← hb]
      simp
      omega
    | none => rw [candidateChain_none hr]; simp

/-- **C8**: `enabled` returns the boolean stored under the first (hence
longest, the chain being strictly length-decreasing) candidate in the
truncation chain that has an entry, defaulting to `true`; in particular
the `psr4` group example behaves as claimed. -/
theorem claim_C8 :
    (∀ (rules : List (String × Bool)) (name : String),
      enabled rules name = ((candidateChain name.data).findSome? (lookupRule rules)).getD true) ∧
    (∀ name : String, List.Chain' (fun a b : List Char => b.length < a.length)
      (candidateChain name.data)) ∧
    (∀ name : String, (candidateChain name.data).head? = some name.data) ∧
    enabled [("psr4", true), ("psr4/namespace", false)] "psr4/namespace" = false ∧
    enabled [("psr4", true), ("psr4/namespace", false)] "psr4/anything_else" = true := by
  refine ⟨fun rules name => enabledGo_chain rules name.data.length name.data le_rfl,
    fun name => candidateChain_decreasing name.data.length name.data le_rfl,
    fun name => candidateChain_head name.data,
    ?_, ?_⟩
  · rw [enabled,
      @enabledGo_hit [("psr4", true), ("psr4/namespace", false)] "psr4/namespace".data false
        (by decide)]
  · rw [enabled,
      @enabledGo_miss_slash [("psr4", true), ("psr4/namespace", false)]
        "psr4/anything_else".data 4 (by decide) (by decide)]
    rw [show "psr4/anything_else".data.take 4 = "psr4".data from by decide]
    rw [@enabledGo_hit [("psr4", true), ("psr4/namespace", false)] "psr4".data true (by decide)]

/-! ### Syntax tree model (the tree-sitter boundary of §6) -/

/-- A row/column position, tree-sitter's `Point`. -/
structure Point where
  row : Nat
  column : Nat
deriving DecidableEq

/-- `Span` from `src/analyzer.rs` (`end` is a Lean keyword, hence primed). -/
structure Span where
  start : Point
  end' : Point
deriving DecidableEq

/-- A parsed syntax node, the read-only view of the external tree-sitter
tree that the analyzer consumes (§6 "Parser boundary"): a kind tag, the
tree-sitter field name linking it to its parent (if any), the source text
of the node, byte offsets, row/column positions, and named children.
Children model tree-sitter's *named* children, the only ones the analyzer
walks. -/
inductive PNode where
  | mk (kind : String) (field : Option String) (text : String)
      (startByte endByte : Nat) (startPos endPos : Point)
      (children : List PNode)

def PNode.kind : PNode → String
  | .mk k _ _ _ _ _ _ _ => k

def PNode.field : PNode → Option String
  | .mk _ f _ _ _ _ _ _ => f

def PNode.text : PNode → String
  | .mk _ _ t _ _ _ _ _ => t

def PNode.startByte : PNode → Nat
  | .mk _ _ _ sb _ _ _ _ => sb

def PNode.endByte : PNode → Nat
  | .mk _ _ _ _ eb _ _ _ => eb

def PNode.startPos : PNode → Point
  | .mk _ _ _ _ _ sp _ _ => sp

def PNode.endPos : PNode → Point
  | .mk _ _ _ _ _ _ ep _ => ep

def PNode.children : PNode → List PNode
  | .mk _ _ _ _ _ _ _ cs => cs

mutual

/-- `walk_node` from `src/analyzer/rules/helpers.rs` lines 111-125 visits a
node and then all of its children, depth first; `preorder` is the list of
nodes it visits, in visit order. -/
def preorder : PNode → List PNode
  | .mk k f t sb eb sp ep cs => .mk k f t sb eb sp ep cs :: preorderList cs

def preorderList : List PNode → List PNode
  | [] => []
  | c :: cs => preorder c ++ preorderList cs

end

/-- `child_by_kind` from `src/analyzer/rules/helpers.rs` lines 127-136: the
first named child with the given kind. -/
def child_by_kind (n : PNode) (kind : String) : Option PNode :=
  n.children.find? (fun c => c.kind == kind)

/-- tree-sitter's `child_by_field_name`: the first child carrying the given
field name. -/
def child_by_field (n : PNode) (f : String) : Option PNode :=
  n.children.find? (fun c => c.field == some f)

/-- Rust `str::trim`: drop leading and trailing whitespace.  (Defined on
the character list so that it evaluates by kernel reduction.) -/
def trimString (s : String) : String :=
  String.mk (((s.data.dropWhile Char.isWhitespace).reverse.dropWhile
    Char.isWhitespace).reverse)

/-- `node_text` from `src/analyzer/rules/helpers.rs` lines 157-162: the
node's source text, trimmed.  (The Rust version returns `None` on invalid
UTF-8, which cannot happen for text sliced out of a `&str` source; the
model stores the slice in the node.) -/
def node_text (n : PNode) : Option String :=
  some (trimString n.text)

/-- `ParsedSource` (path plus original text), from
`src/analyzer/parser.rs`. -/
structure ParsedSource where
  path : String
  source : String

/-! ### Diagnostics (src/analyzer.rs) -/

/-- `Severity` from `src/analyzer.rs`. -/
inductive Severity where
  | info
  | warning
  | error
deriving DecidableEq

/-- `Diagnostic` from `src/analyzer.rs` lines 57-69. -/
structure Diagnostic where
  file : String
  severity : Severity
  message : String
  rule_name : Option String
  span : Option Span
  snippet_before : Option String
  snippet_line : Option String
  snippet_after : Option String
  caret_col : Option Nat
  caret_len : Nat
deriving DecidableEq

/-- `Diagnostic::new` from `src/analyzer.rs` lines 72-86. -/
def Diagnostic.new (file : String) (severity : Severity) (message : String) : Diagnostic :=
  { file := file, severity := severity, message := message, rule_name := none,
    span := none, snippet_before := none, snippet_line := none, snippet_after := none,
    caret_col := none, caret_len := 1 }

/-- `Diagnostic::with_span` from `src/analyzer.rs` lines 88-111: clamps the
supplied caret length to a minimum of 1. -/
def Diagnostic.with_span (file : String) (severity : Severity) (message : String)
    (span : Span) (snippet_before snippet_line snippet_after : Option String)
    (caret_col : Option Nat) (caret_len : Nat) : Diagnostic :=
  { file := file, severity := severity, message := message, span := some span,
    snippet_before := snippet_before, snippet_line := snippet_line,
    snippet_after := snippet_after, caret_col := caret_col,
    caret_len := max caret_len 1, rule_name := none }

/-- Rust's `str::lines()`: split on `'\n'`, dropping a final empty piece
(terminal newline) and a trailing `'\r'` on each line. -/
def rustLines (source : String) : List String :=
  let parts := source.splitOn "\n"
  let parts := if parts.getLast? = some "" then parts.dropLast else parts
  parts.map (fun l => if l.endsWith "\r" then l.dropRight 1 else l)

/-- `line_at` from `src/analyzer/rules/helpers.rs` lines 106-108. -/
def line_at (source : String) (row : Nat) : Option String :=
  (rustLines source).get? row

/-- `diagnostic_for_node` from `src/analyzer/rules/helpers.rs` lines 34-71:
derives span, snippets and caret from the node, with the caret length the
span's column width clamped to a minimum of 1 (or 1 for multi-row
spans). -/
def diagnostic_for_node (parsed : ParsedSource) (node : PNode) (severity : Severity)
    (message : String) : Diagnostic :=
  let span : Span := ⟨node.startPos, node.endPos⟩
  let snippet_before :=
    match span.start.row with
    | 0 => none
    | r + 1 => line_at parsed.source r
  let snippet_line := line_at parsed.source span.start.row
  let snippet_after := line_at parsed.source (span.start.row + 1)
  let caret_col := some span.start.column
  let caret_len :=
    if span.start.row = span.end'.row then max (span.end'.column - span.start.column) 1
    else 1
  Diagnostic.with_span parsed.path severity message span snippet_before snippet_line
    snippet_after caret_col caret_len

/-- `diagnostic_for_span` from `src/analyzer/rules/helpers.rs` lines
73-104: as `diagnostic_for_node`, from an explicit span. -/
def diagnostic_for_span (parsed : ParsedSource) (span : Span) (severity : Severity)
    (message : String) : Diagnostic :=
  let snippet_before :=
    match span.start.row with
    | 0 => none
    | r + 1 => line_at parsed.source r
  let snippet_line := line_at parsed.source span.start.row
  let snippet_after := line_at parsed.source (span.start.row + 1)
  let caret_col := some span.start.column
  let caret_len :=
    if span.start.row = span.end'.row then max (span.end'.column - span.start.column) 1
    else 1
  Diagnostic.with_span parsed.path severity message span snippet_before snippet_line
    snippet_after caret_col caret_len

/-- **C10**: every `Diagnostic` constructor yields `caret_len ≥ 1`:
`Diagnostic::new` sets it to 1, `Diagnostic::with_span` clamps the
supplied value to a minimum of 1, and the snippet-deriving constructors
compute the span's column width clamped to a minimum of 1.  (These four
are the only ways diagnostics are created in the codebase.) -/
theorem claim_C10 (file : String) (severity : Severity) (message : String) (span : Span)
    (sb sl sa : Option String) (cc : Option Nat) (cl : Nat)
    (parsed : ParsedSource) (node : PNode) :
    (Diagnostic.new file severity message).caret_len = 1 ∧
    (Diagnostic.with_span file severity message span sb sl sa cc cl).caret_len = max cl 1 ∧
    1 ≤ (Diagnostic.with_span file severity message span sb sl sa cc cl).caret_len ∧
    1 ≤ (diagnostic_for_node parsed node severity message).caret_len ∧
    1 ≤ (diagnostic_for_span parsed span severity message).caret_len := by
  refine ⟨rfl, rfl, ?_, ?_, ?_⟩
  · simp [Diagnostic.with_span]
  · simp [diagnostic_for_node, Diagnostic.with_span]
  · simp [diagnostic_for_span, Diagnostic.with_span]


/-! ### Import alias collection (src/analyzer/project.rs) -/

/-- `UseInfo` from `src/analyzer/project.rs`: one import clause's resolved
alias entry. -/
structure UseInfo where
  target : String
  span : Span
  clause_start : Nat
  clause_end : Nat
  declaration_has_multiple_clauses : Bool
deriving DecidableEq

/-- `last_name_in_node` from `src/analyzer/project.rs` lines 209-218: the
last named child of kind `name`. -/
def last_name_in_node (n : PNode) : Option PNode :=
  (n.children.filter (fun c => c.kind == "name")).getLast?

/-- `alias_node_from_clause` from `src/analyzer/project.rs` lines 194-207:
the explicit `as` alias name if present, else the last segment of the
imported qualified name. -/
def alias_node_from_clause (clause : PNode) : Option PNode :=
  match child_by_kind clause "namespace_aliasing_clause" with
  | some aliasClause =>
      match child_by_kind aliasClause "name" with
      | some aliasName => some aliasName
      | none => (child_by_kind clause "qualified_name").bind last_name_in_node
  | none => (child_by_kind clause "qualified_name").bind last_name_in_node

/-- The `(alias, UseInfo)` pairs one `namespace_use_declaration` node
inserts, in clause order — the loop body of `collect_use_aliases`
(`src/analyzer/project.rs` lines 152-189): count the clauses, then for
each clause with a qualified name and an alias node record the alias
entry. -/
def declEvents (node : PNode) : List (String × UseInfo) :=
  if node.kind == "namespace_use_declaration" then
    let clauses := node.children.filter (fun c => c.kind == "namespace_use_clause")
    let multi := decide (1 < clauses.length)
    clauses.filterMap (fun clause =>
      match child_by_kind clause "qualified_name" with
      | none => none
      | some qualified =>
          match node_text qualified with
          | none => none
          | some fqName =>
              match alias_node_from_clause clause with
              | none => none
              | some aliasNode =>
                  match node_text aliasNode with
                  | none => none
                  | some aliasText =>
                      some (aliasText,
                        { target := fqName,
                          span := ⟨aliasNode.startPos, aliasNode.endPos⟩,
                          clause_start := clause.startByte,
                          clause_end := clause.endByte,
                          declaration_has_multiple_clauses := multi }))
  else []

/-- `HashMap::insert`: replace the entry for the key if present, else add
it.  (The map is modelled as an association list; only lookups are
observed, so iteration order is irrelevant.) -/
def insertReplace : List (String × UseInfo) → String → UseInfo → List (String × UseInfo)
  | [], k, v => [(k, v)]
  | (k', v') :: rest, k, v =>
      if k' = k then (k, v) :: rest else (k', v') :: insertReplace rest k v

/-- `HashMap::get` on the association-list model. -/
def lookupAlias : List (String × UseInfo) → String → Option UseInfo
  | [], _ => none
  | (k, v) :: rest, key => if k = key then some v else lookupAlias rest key

/-- `collect_use_aliases` from `src/analyzer/project.rs` lines 149-192:
walk the tree; every `namespace_use_declaration` node inserts its clause
entries into the alias map in clause order. -/
def collect_use_aliases (root : PNode) : List (String × UseInfo) :=
  ((preorder root).flatMap declEvents).foldl (fun m kv => insertReplace m kv.1 kv.2) []

/-- The last event (in insertion order) for a given alias key, if any. -/
def lastHit : List (String × UseInfo) → String → Option UseInfo
  | [], _ => none
  | (k, v) :: rest, key =>
      match lastHit rest key with
      | some r => some r
      | none => if k = key then some v else none

theorem lookupAlias_insertReplace (m : List (String × UseInfo)) (k key : String) (v : UseInfo) :
    lookupAlias (insertReplace m k v) key = if k = key then some v else lookupAlias m key := by
  induction m with
  | nil => rfl
  | cons kv rest ih =>
    obtain ⟨k', v'⟩ := kv
    rw [insertReplace]
    by_cases hk : k' = k
    · subst hk
      rw [if_pos rfl]
      by_cases hq : k' = key <;> simp [lookupAlias, hq]
    · rw [if_neg hk]
      by_cases hq : k' = key
      · subst hq
        have hw : ¬ (k = k') := fun h => hk h.symm
        simp [lookupAlias, hw]
      · simp [lookupAlias, hq, ih]

theorem lookupAlias_foldl (evs : List (String × UseInfo)) :
    ∀ (m : List (String × UseInfo)) (key : String),
      lookupAlias (evs.foldl (fun m kv => insertReplace m kv.1 kv.2) m) key =
        match lastHit evs key with
        | some r => some r
        | none => lookupAlias m key := by
  induction evs with
  | nil => intro m key; rfl
  | cons e evs ih =>
    intro m key
    obtain ⟨k0, v0⟩ := e
    rw [List.foldl_cons, ih, lastHit]
    cases lastHit evs key with
    | some r => rfl
    | none =>
      simp only
      rw [lookupAlias_insertReplace]
      by_cases hq : k0 = key <;> simp [hq]

theorem mem_keys_insertReplace : ∀ {m : List (String × UseInfo)} {k : String} {v : UseInfo}
    {x : String}, x ∈ (insertReplace m k v).map Prod.fst → x ∈ m.map Prod.fst ∨ x = k := by
  intro m
  induction m with
  | nil =>
    intro k v x hx
    rw [insertReplace] at hx
    simp at hx
    right
    exact hx
  | cons kv rest ih =>
    obtain ⟨k', v'⟩ := kv
    intro k v x hx
    rw [insertReplace] at hx
    split at hx
    · simp at hx ⊢
      rcases hx with rfl | hx
      · right; rfl
      · left; right; exact hx
    · simp at hx ⊢
      rcases hx with rfl | hx
      · left; left; rfl
      · rcases ih (by simpa using hx) with h | h
        · simp at h
          left
          right
          exact h
        · right
          exact h

theorem keysNodup_insertReplace (m : List (String × UseInfo)) (k : String) (v : UseInfo)
    (h : (m.map Prod.fst).Nodup) : ((insertReplace m k v).map Prod.fst).Nodup := by
  induction m with
  | nil => simp [insertReplace]
  | cons kv rest ih =>
    obtain ⟨k', v'⟩ := kv
    rw [List.map_cons, List.nodup_cons] at h
    rw [insertReplace]
    by_cases hk : k' = k
    · rw [if_pos hk, List.map_cons, List.nodup_cons]
      exact ⟨by rw [← hk]; exact h.1, h.2⟩
    · rw [if_neg hk, List.map_cons, List.nodup_cons]
      refine ⟨?_, ih h.2⟩
      intro hmem
      rcases mem_keys_insertReplace hmem with hin | heq
      · exact h.1 hin
      · exact hk heq

theorem keysNodup_foldl (evs : List (String × UseInfo)) :
    ∀ (m : List (String × UseInfo)), (m.map Prod.fst).Nodup →
      ((evs.foldl (fun m kv => insertReplace m kv.1 kv.2) m).map Prod.fst).Nodup := by
  induction evs with
  | nil => intro m h; exact h
  | cons e evs ih =>
    intro m h
    rw [List.foldl_cons]
    exact ih _ (keysNodup_insertReplace m e.1 e.2 h)

/-- A file with two import clauses that resolve to the same alias `Svc`:
`use Foo\Svc;` then `use Bar\Svc;` (no explicit `as` aliases, so the alias
is the last segment of each qualified name). -/
def exampleUseDecl1 : PNode :=
  .mk "namespace_use_declaration" none "use Foo\\Svc;" 5 18 ⟨2, 0⟩ ⟨2, 13⟩
    [.mk "namespace_use_clause" none "Foo\\Svc" 10 17 ⟨2, 5⟩ ⟨2, 12⟩
      [.mk "qualified_name" none "Foo\\Svc" 10 17 ⟨2, 5⟩ ⟨2, 12⟩
        [.mk "name" none "Foo" 10 13 ⟨2, 5⟩ ⟨2, 8⟩ [],
         .mk "name" none "Svc" 14 17 ⟨2, 9⟩ ⟨2, 12⟩ []]]]

def exampleUseDecl2 : PNode :=
  .mk "namespace_use_declaration" none "use Bar\\Svc;" 25 38 ⟨3, 0⟩ ⟨3, 13⟩
    [.mk "namespace_use_clause" none "Bar\\Svc" 30 37 ⟨3, 5⟩ ⟨3, 12⟩
      [.mk "qualified_name" none "Bar\\Svc" 30 37 ⟨3, 5⟩ ⟨3, 12⟩
        [.mk "name" none "Bar" 30 33 ⟨3, 5⟩ ⟨3, 8⟩ [],
         .mk "name" none "Svc" 34 37 ⟨3, 9⟩ ⟨3, 12⟩ []]]]

def exampleUseRoot : PNode :=
  .mk "program" none "" 0 50 ⟨0, 0⟩ ⟨4, 0⟩ [exampleUseDecl1, exampleUseDecl2]

/-- **C2, counterexample**: with the two same-alias clauses above, the
first-seen clause's entry is `Foo\Svc` at bytes 10-17, but the final
mapping holds the *second* clause's entry (`Bar\Svc`, bytes 30-37):
`HashMap::insert` replaces, so last-seen wins, not first-seen. -/
theorem claim_C2_counterexample :
    declEvents exampleUseDecl1 =
      [("Svc", { target := "Foo\\Svc", span := ⟨⟨2, 9⟩, ⟨2, 12⟩⟩, clause_start := 10,
                 clause_end := 17, declaration_has_multiple_clauses := false })] ∧
    lookupAlias (collect_use_aliases exampleUseRoot) "Svc" =
      some { target := "Bar\\Svc", span := ⟨⟨3, 9⟩, ⟨3, 12⟩⟩, clause_start := 30,
             clause_end := 37, declaration_has_multiple_clauses := false } ∧
    lookupAlias (collect_use_aliases exampleUseRoot) "Svc" ≠
      some { target := "Foo\\Svc", span := ⟨⟨2, 9⟩, ⟨2, 12⟩⟩, clause_start := 10,
             clause_end := 17, declaration_has_multiple_clauses := false } := by
  refine ⟨by decide, by decide, by decide⟩

/-- **C2, amended**: alias keys are unique per file, and for duplicate
alias declarations *last-seen wins*: the mapping's entry for a key is the
last `(alias, info)` event produced by the document-order walk over the
file's import clauses. -/
theorem claim_C2 (root : PNode) (key : String) :
    lookupAlias (collect_use_aliases root) key =
      lastHit ((preorder root).flatMap declEvents) key ∧
    ((collect_use_aliases root).map Prod.fst).Nodup := by
  constructor
  · rw [collect_use_aliases, lookupAlias_foldl]
    cases lastHit ((preorder root).flatMap declEvents) key <;> rfl
  · exact keysNodup_foldl _ [] (by simp)

/-! ### Missing-return rule (src/analyzer/rules/strict_typing/missing_return.rs) -/

/-- The conditional ancestor kinds of `has_conditional_ancestor`
(`src/analyzer/rules/helpers.rs` lines 168-191). -/
def isCondKind (k : String) : Bool :=
  k == "if_statement" || k == "elseif_clause" || k == "else_clause" ||
    k == "match_expression" || k == "switch_statement"

/-- Whether a subtree contains a `return_statement` node.  The Rust rule
tests `r.start_byte() >= b.start_byte() && r.end_byte() <= b.end_byte()`
against the function body's collected return nodes; on a well-nested
tree-sitter tree, byte-range containment of a node of the same tree is
subtree membership, which is how it is modelled here. -/
def subtreeHasReturn (b : PNode) : Bool :=
  (preorder b).any (fun n => n.kind == "return_statement")

mutual

/-- `return_nodes.iter().any(|r| !has_conditional_ancestor(*r, body))`
(`missing_return.rs` lines 50-52), structurally: the body subtree contains
a return reachable from the body without passing through any conditional
node.  `has_conditional_ancestor r body` walks `r`'s parent chain up to
(excluding) `body` looking for a conditional kind, so a return is
unconditional exactly when every node strictly between it and the body is
non-conditional. -/
def hasUncondReturnUnder : PNode → Bool
  | .mk _ _ _ _ _ _ _ cs => uncondReturnInChildren cs

def uncondReturnInChildren : List PNode → Bool
  | [] => false
  | c :: cs =>
      (c.kind == "return_statement" || (!isCondKind c.kind && hasUncondReturnUnder c)) ||
        uncondReturnInChildren cs

end

/-- The `else`/`elseif` scanning loop over one `if_statement`'s named
children (`missing_return.rs` lines 115-144), threading
`(has_else, has_else_return)`; `none` models the early `return false`
taken when an `elseif` body lacks a return. -/
def elseFold : List PNode → Bool × Bool → Option (Bool × Bool)
  | [], st => some st
  | c :: rest, (he, her) =>
      if c.kind == "else_clause" then
        let her' :=
          match child_by_kind c "compound_statement" with
          | some b => subtreeHasReturn b
          | none => her
        elseFold rest (true, her')
      else if c.kind == "elseif_clause" then
        match child_by_kind c "compound_statement" with
        | some b => if subtreeHasReturn b then elseFold rest (he, her) else none
        | none => elseFold rest (he, her)
      else elseFold rest (he, her)

/-- The per-`if` verdict of `all_conditional_branches_return`
(`missing_return.rs` lines 106-152): the taken branch's return flag plus
the else/elseif scan; with an `else` clause both branches must return,
without one the `if` cannot guarantee a return. -/
def ifGuaranteesReturn (if_stmt : PNode) : Option Bool :=
  let hasIfReturn :=
    match child_by_kind if_stmt "compound_statement" with
    | some b => subtreeHasReturn b
    | none => false
  match elseFold if_stmt.children (false, false) with
  | none => none
  | some (hasElse, hasElseReturn) =>
      if hasElse then some (hasIfReturn && hasElseReturn) else some false

/-- `all_conditional_branches_return` from `missing_return.rs` lines
91-159: false when the body has no `if` statements; otherwise every `if`
statement in the body (nested ones included, per `walk_node`) must
guarantee a return, an elseif body without a return aborting the whole
check. -/
def all_conditional_branches_return (body : PNode) : Bool :=
  let ifStmts := (preorder body).filter (fun n => n.kind == "if_statement")
  if ifStmts.isEmpty then false
  else
    ifStmts.all (fun if_stmt =>
      match ifGuaranteesReturn if_stmt with
      | none => false
      | some b => b)

/-- `node.child_by_field_name("name").unwrap_or(node)`
(`missing_return.rs` line 64). -/
def mrNameNode (f : PNode) : PNode :=
  (child_by_field f "name").getD f

/-- The diagnostic message of `missing_return.rs` line 73. -/
def mrMessage (name : String) (row column : Nat) : String :=
  "function " ++ name ++ " is missing a return on some paths at " ++
    toString row ++ ":" ++ toString column

/-- The diagnostic emitted for one offending function
(`missing_return.rs` lines 64-74): anchored at the function's name node,
with 1-indexed row/column in the message. -/
def mrDiagnostic (parsed : ParsedSource) (f : PNode) : Diagnostic :=
  let nameNode := mrNameNode f
  let name := (node_text nameNode).getD "anonymous"
  let row := nameNode.startPos.row + 1
  let column := nameNode.startPos.column + 1
  diagnostic_for_node parsed nameNode .error (mrMessage name row column)

/-- The per-node body of `MissingReturnRule::run`'s walk
(`missing_return.rs` lines 29-76). -/
def checkFunction (parsed : ParsedSource) (f : PNode) : List Diagnostic :=
  if f.kind == "function_definition" then
    match child_by_kind f "compound_statement" with
    | none => []
    | some body =>
        let returnNodes := (preorder body).filter (fun n => n.kind == "return_statement")
        if returnNodes.isEmpty then []
        else if hasUncondReturnUnder body then []
        else if all_conditional_branches_return body then []
        else [mrDiagnostic parsed f]
  else []

/-- `MissingReturnRule::run`: the walk applies `checkFunction` to every
node of the file's tree in document order. -/
def missingReturnRun (parsed : ParsedSource) (root : PNode) : List Diagnostic :=
  (preorder root).flatMap (checkFunction parsed)

/-- **C6**: per function body — no returns at all, an unconditional
return, or all conditional branches returning each silence the rule;
otherwise exactly one Error diagnostic is emitted, anchored at the
function's name node, its message carrying the 1-indexed row/column. -/
theorem claim_C6 (parsed : ParsedSource) (root f body : PNode)
    (hk : f.kind = "function_definition")
    (hb : child_by_kind f "compound_statement" = some body) :
    (missingReturnRun parsed root = (preorder root).flatMap (checkFunction parsed)) ∧
    (((preorder body).filter (fun n => n.kind == "return_statement")).isEmpty = true →
      checkFunction parsed f = []) ∧
    (hasUncondReturnUnder body = true → checkFunction parsed f = []) ∧
    (all_conditional_branches_return body = true → checkFunction parsed f = []) ∧
    (((preorder body).filter (fun n => n.kind == "return_statement")).isEmpty = false →
      hasUncondReturnUnder body = false →
      all_conditional_branches_return body = false →
      checkFunction parsed f = [mrDiagnostic parsed f] ∧
        (mrDiagnostic parsed f).severity = .error ∧
        (mrDiagnostic parsed f).span = some ⟨(mrNameNode f).startPos, (mrNameNode f).endPos⟩ ∧
        (mrDiagnostic parsed f).message =
          mrMessage ((node_text (mrNameNode f)).getD "anonymous")
            ((mrNameNode f).startPos.row + 1) ((mrNameNode f).startPos.column + 1)) := by
  refine ⟨rfl, ?_, ?_, ?_, ?_⟩
  · intro h1
    rw [checkFunction, if_pos (by simp [hk]), hb]
    simp only [h1, if_pos]
  · intro h2
    rw [checkFunction, if_pos (by simp [hk]), hb]
    by_cases h1 : ((preorder body).filter (fun n => n.kind == "return_statement")).isEmpty
    · simp [h1]
    · simp [h1, h2]
  · intro h3
    rw [checkFunction, if_pos (by simp [hk]), hb]
    by_cases h1 : ((preorder body).filter (fun n => n.kind == "return_statement")).isEmpty
    · simp [h1]
    · by_cases h2 : hasUncondReturnUnder body
      · simp [h1, h2]
      · simp [h1, h2, h3]
  · intro h1 h2 h3
    refine ⟨?_, rfl, rfl, rfl⟩
    rw [checkFunction, if_pos (by simp [hk]), hb]
    simp [h1, h2, h3]

/-- The rule's own fixture (`missing_return.rs` test): a function whose
only return sits inside an `if` with no `else`. -/
def exampleMrName : PNode :=
  .mk "name" (some "name") "maybeString" 16 27 ⟨2, 9⟩ ⟨2, 20⟩ []

def exampleMrBody : PNode :=
  .mk "compound_statement" (some "body") "\x7b ... \x7d" 41 110 ⟨3, 0⟩ ⟨9, 1⟩
    [.mk "if_statement" none "if ($flag) \x7b return 'ok'; \x7d" 47 90 ⟨4, 4⟩ ⟨6, 5⟩
      [.mk "parenthesized_expression" (some "condition") "($flag)" 50 57 ⟨4, 7⟩ ⟨4, 14⟩ [],
       .mk "compound_statement" (some "body") "\x7b return 'ok'; \x7d" 58 90 ⟨4, 15⟩ ⟨6, 5⟩
         [.mk "return_statement" none "return 'ok';" 68 80 ⟨5, 8⟩ ⟨5, 20⟩ []]]]

def exampleMrFunction : PNode :=
  .mk "function_definition" none "function maybeString(bool $flag) \x7b ... \x7d" 7 110 ⟨2, 0⟩ ⟨9, 1⟩
    [exampleMrName,
     .mk "formal_parameters" (some "parameters") "(bool $flag)" 27 39 ⟨2, 20⟩ ⟨2, 32⟩ [],
     exampleMrBody]

def exampleMrParsed : ParsedSource :=
  { path := "maybe_string.php",
    source := "<?php\n\nfunction maybeString(bool $flag)\n\x7b\n    if ($flag) \x7b\n        return 'ok';\n    \x7d\n\n    // Missing return for the false branch.\n\x7d\n" }

/-- **C6, witness**: on the fixture the rule emits exactly one Error
anchored at the function's name, reporting row 3, column 10. -/
theorem claim_C6_witness :
    checkFunction exampleMrParsed exampleMrFunction =
      [mrDiagnostic exampleMrParsed exampleMrFunction] ∧
    (mrDiagnostic exampleMrParsed exampleMrFunction).severity = .error ∧
    (mrDiagnostic exampleMrParsed exampleMrFunction).message =
      "function maybeString is missing a return on some paths at 3:10" := by
  have h := (claim_C6 exampleMrParsed exampleMrFunction exampleMrFunction exampleMrBody
    rfl rfl).2.2.2.2 (by decide) (by decide) (by decide)
  exact ⟨h.1, h.2.1, by decide⟩
